import Mathlib

/-!
Shallow embedding of the ConvoConnect backend room-lifecycle logic
(`Convo_Backend/index.js` with the Mongoose schemas of `Convo_Backend/db.js`).

The persistent store is modelled as a `DB` record holding the `rooms`,
`members` (the `RoomMember` collection) and `messages` collections as lists in
insertion order, together with a monotone id counter `nextId` standing in for
MongoDB object-id allocation.  Each Express handler becomes a pure function
from a `DB` (plus its request parameters) to a result and an updated `DB`:

* `POST /rooms`                 → `createRoom`
* `POST /rooms/join-by-code`    → `joinRoomByCode`
* `POST /rooms/:roomId/join`    → `joinRoomById`
* `POST /rooms/:roomId/leave`   → `leaveRoom`
* `PATCH /rooms/:roomId`        → `renameRoom`
* `POST /rooms/:roomId/messages`→ `sendMessage`
* `GET /rooms/:roomId/details`  → `roomDetails`
* `generateRoomCode`            → `generateRoomCode` (randomness as a stream
  of explicit draws, each draw being the six `Math.floor(Math.random()*32)`
  indices of one loop iteration)

MongoDB query primitives are modelled on the lists: `findOne`/`findById` as
`List.find?` (first match in natural order), `countDocuments` as
`List.countP`, `deleteMany` as `List.filter`, deletion of a single fetched
document (`doc.deleteOne()`, `findByIdAndDelete`) as filtering out its unique
id, `doc.save()` of a fetched document as mapping an update over its unique
id, and `.sort({joinedAt: 1})` as a stable insertion sort on `joinedAt`
(ties keep natural order, i.e. ascending ids).
-/

namespace Convo

/-- A document of the `Room` collection (`roomSchema` in `db.js`). -/
structure Room where
  rid : Nat
  name : String
  description : String
  roomCode : String
  owner : Nat
  maxMembers : Int
deriving DecidableEq, Repr

/-- A document of the `RoomMember` collection (`roomMemberSchema` in `db.js`). -/
structure RoomMember where
  mid : Nat
  room : Nat
  user : Nat
  role : String
  status : String
  joinedAt : Nat
deriving DecidableEq, Repr

/-- A document of the `Message` collection (`messageSchema` in `db.js`). -/
structure Message where
  msgId : Nat
  room : Nat
  author : Nat
  content : String
deriving DecidableEq, Repr

/-- The persistent store: the three room-related collections in insertion
order plus a fresh-id counter. -/
structure DB where
  rooms : List Room
  members : List RoomMember
  messages : List Message
  nextId : Nat
deriving DecidableEq, Repr

/-- The empty store the server starts from. -/
def initDB : DB := ⟨[], [], [], 0⟩

/-! ### Room-code generation (`generateRoomCode`, index.js lines 46-63) -/

/-- `const characters = "ABCDEFGHJKLMNPQRSTUVWXYZ23456789"` — the fixed
alphabet, which avoids the ambiguous characters `0`, `O`, `1`, `I`. -/
def characters : List Char := "ABCDEFGHJKLMNPQRSTUVWXYZ23456789".toList

theorem characters_length : characters.length = 32 := rfl

/-- `characters[index]` for an in-range index: `Math.floor(Math.random() *
characters.length)` always lands in `[0, 32)`. -/
def charIdx (i : Fin 32) : Char :=
  characters.get ⟨i.val, lt_of_lt_of_eq i.isLt characters_length.symm⟩

/-- The six random draws of one iteration of the generation loop
(`for (let i = 0; i < length; i++)` with `length = 6`). -/
structure Draw where
  d0 : Fin 32
  d1 : Fin 32
  d2 : Fin 32
  d3 : Fin 32
  d4 : Fin 32
  d5 : Fin 32
deriving DecidableEq, Repr

/-- The 6-character candidate code built by one loop iteration. -/
def mkCode (d : Draw) : String :=
  String.mk [charIdx d.d0, charIdx d.d1, charIdx d.d2, charIdx d.d3,
             charIdx d.d4, charIdx d.d5]

/-- `generateRoomCode`: draw a candidate, return it unless a room with that
code already exists (`Room.findOne({ roomCode: code })`), otherwise retry
with the next draw.  The source loops with `while (true)`; here the random
stream is an explicit list of draws, and the result also reports how many
attempts were consumed.  `none` means only that the supplied finite stream
ran out — the source would simply keep drawing. -/
def generateRoomCode (existingCodes : List String) : List Draw → Option (String × Nat)
  | [] => none
  | d :: ds =>
    let code := mkCode d
    if code ∈ existingCodes then
      match generateRoomCode existingCodes ds with
      | some (c, n) => some (c, n + 1)
      | none => none
    else
      some (code, 1)

theorem charIdx_mem (i : Fin 32) : charIdx i ∈ characters :=
  List.get_mem characters _ _

theorem characters_no_ambiguous :
    ∀ ch ∈ characters, ch ≠ '0' ∧ ch ≠ 'O' ∧ ch ≠ '1' ∧ ch ≠ 'I' := by
  decide

theorem mkCode_length (d : Draw) : (mkCode d).length = 6 := rfl

theorem mkCode_mem_characters (d : Draw) : ∀ ch ∈ (mkCode d).data, ch ∈ characters := by
  intro ch hch
  have hdata : (mkCode d).data = [charIdx d.d0, charIdx d.d1, charIdx d.d2,
      charIdx d.d3, charIdx d.d4, charIdx d.d5] := rfl
  rw [hdata] at hch
  simp only [List.mem_cons, List.not_mem_nil, or_false] at hch
  rcases hch with h | h | h | h | h | h <;> subst h <;> exact charIdx_mem _

/-- Everything the generator guarantees about a returned code: it is the
6-character image of one of the draws (hence over the restricted alphabet)
and it does not collide with any currently existing room code. -/
theorem generateRoomCode_spec (existing : List String) :
    ∀ (draws : List Draw) (c : String) (n : Nat),
      generateRoomCode existing draws = some (c, n) →
      (∃ d : Draw, c = mkCode d) ∧ c ∉ existing := by
  intro draws
  induction draws with
  | nil => intro c n h; simp [generateRoomCode] at h
  | cons d ds ih =>
    intro c n h
    by_cases hmem : mkCode d ∈ existing
    · simp only [generateRoomCode, if_pos hmem] at h
      cases hgen : generateRoomCode existing ds with
      | none => rw [hgen] at h; simp at h
      | some p =>
        obtain ⟨c', n'⟩ := p
        rw [hgen] at h
        simp only [Option.some.injEq, Prod.mk.injEq] at h
        obtain ⟨hc, -⟩ := h
        subst hc
        exact ih c' n' hgen
    · simp only [generateRoomCode, if_neg hmem, Option.some.injEq, Prod.mk.injEq] at h
      obtain ⟨hc, -⟩ := h
      subst hc
      exact ⟨⟨d, rfl⟩, hmem⟩

/-- C7 — Room-code postcondition: every code returned by the generator has
length exactly 6, each of its characters is drawn from the fixed alphabet and
is none of the visually ambiguous characters `0`, `O`, `1`, `I`, and the
returned code differs from every currently existing room code. -/
theorem C7_code_postcondition (existing : List String) (draws : List Draw)
    (c : String) (n : Nat) (h : generateRoomCode existing draws = some (c, n)) :
    c.length = 6 ∧
    (∀ ch ∈ c.data, ch ∈ characters ∧ ch ≠ '0' ∧ ch ≠ 'O' ∧ ch ≠ '1' ∧ ch ≠ 'I') ∧
    c ∉ existing := by
  obtain ⟨⟨d, hd⟩, hnotin⟩ := generateRoomCode_spec existing draws c n h
  subst hd
  refine ⟨mkCode_length d, ?_, hnotin⟩
  intro ch hch
  have hmem := mkCode_mem_characters d ch hch
  exact ⟨hmem, characters_no_ambiguous ch hmem⟩

/-- A concrete draw: six times index 0, giving the code `"AAAAAA"`. -/
def drawA : Draw := ⟨0, 0, 0, 0, 0, 0⟩

/-- A concrete draw: six times index 1, giving the code `"BBBBBB"`. -/
def drawB : Draw := ⟨1, 1, 1, 1, 1, 1⟩

theorem C7_code_postcondition_witness :
    generateRoomCode [] [drawA] = some ("AAAAAA", 1) ∧
    ("AAAAAA".length = 6 ∧
     (∀ ch ∈ "AAAAAA".data, ch ∈ characters ∧ ch ≠ '0' ∧ ch ≠ 'O' ∧ ch ≠ '1' ∧ ch ≠ 'I') ∧
     "AAAAAA" ∉ ([] : List String)) :=
  ⟨by decide, C7_code_postcondition [] [drawA] "AAAAAA" 1 (by decide)⟩

theorem gen_replicate_colliding (k : Nat) :
    generateRoomCode [mkCode drawA] (List.replicate k drawA ++ [drawB]) =
      some (mkCode drawB, k + 1) := by
  induction k with
  | zero =>
    have hne : mkCode drawB ∈ [mkCode drawA] → False := by decide
    simp only [List.replicate, List.nil_append, generateRoomCode]
    rw [if_neg hne]
  | succ n ih =>
    have hmem : mkCode drawA ∈ [mkCode drawA] := by decide
    simp only [List.replicate_succ, List.cons_append, generateRoomCode, if_pos hmem,
      List.append_eq]
    rw [ih]

/-- C6 counterexample — the claim that code generation retries at most some
fixed maximum number of attempts is false: for every candidate bound `M`
there is an execution that succeeds only after `M + 2` attempts (the source
loop is `while (true)` and has no attempt budget at all). -/
theorem C6_counterexample :
    ¬ ∃ M : Nat, ∀ (existing : List String) (draws : List Draw) (c : String) (n : Nat),
        generateRoomCode existing draws = some (c, n) → n ≤ M := by
  rintro ⟨M, h⟩
  have := h [mkCode drawA] (List.replicate (M + 1) drawA ++ [drawB])
    (mkCode drawB) (M + 2) (gen_replicate_colliding (M + 1))
  omega

/-- C6 amended — room-code generation retries on collision without any bound:
a returned code is always collision-free, but for every proposed attempt
budget `M` there is an execution that keeps retrying past `M` attempts and
then succeeds; no `Exhausted`-style failure exists anywhere in the code. -/
theorem C6_unbounded_retry :
    (∀ (existing : List String) (draws : List Draw) (c : String) (n : Nat),
        generateRoomCode existing draws = some (c, n) → c ∉ existing) ∧
    (∀ M : Nat, ∃ (draws : List Draw) (c : String),
        generateRoomCode [mkCode drawA] draws = some (c, M + 2)) := by
  constructor
  · intro existing draws c n h
    exact (generateRoomCode_spec existing draws c n h).2
  · intro M
    exact ⟨List.replicate (M + 1) drawA ++ [drawB], mkCode drawB,
           gen_replicate_colliding (M + 1)⟩

/-! ### JavaScript string helpers

`String.prototype.trim()` and `String.prototype.toUpperCase()` as explicit,
kernel-computable functions on the character list of a string. -/

/-- JS `str.trim()`: strip leading and trailing whitespace. -/
def jsTrim (s : String) : String :=
  String.mk (((s.data.dropWhile Char.isWhitespace).reverse.dropWhile
    Char.isWhitespace).reverse)

/-- JS `str.toUpperCase()` (for the ASCII codes appearing here). -/
def jsToUpper (s : String) : String :=
  String.mk (s.data.map Char.toUpper)

/-! ### Query helpers (Mongoose calls used by the handlers) -/

/-- `Room.findById(roomId)`. -/
def findRoomById (db : DB) (roomId : Nat) : Option Room :=
  db.rooms.find? (fun r => r.rid == roomId)

/-- `Room.findOne({ roomCode: code })`. -/
def findRoomByCode (db : DB) (code : String) : Option Room :=
  db.rooms.find? (fun r => r.roomCode == code)

/-- `RoomMember.findOne({ room: roomId, user: userId })`. -/
def findMembership (db : DB) (roomId userId : Nat) : Option RoomMember :=
  db.members.find? (fun m => m.room == roomId && m.user == userId)

/-- `RoomMember.countDocuments({ room: roomId })`. -/
def memberCount (db : DB) (roomId : Nat) : Nat :=
  db.members.countP (fun m => m.room == roomId)

/-- Stable insert for the `joinedAt`-ascending sort: the inserted element goes
before the first element whose `joinedAt` is not smaller, so elements with
equal `joinedAt` keep their natural (insertion) order. -/
def insertByJoined (a : RoomMember) : List RoomMember → List RoomMember
  | [] => [a]
  | x :: xs => if x.joinedAt < a.joinedAt then x :: insertByJoined a xs else a :: x :: xs

/-- `.sort({ joinedAt: 1 })` on a fetched member list, as a stable insertion
sort. -/
def sortByJoined : List RoomMember → List RoomMember
  | [] => []
  | x :: xs => insertByJoined x (sortByJoined xs)

/-! ### The HTTP handlers (index.js) -/

/-- Result of `POST /rooms`. -/
inductive CreateRes where
  | invalidName
  | ok (room : Room)
deriving DecidableEq, Repr

/-- `POST /rooms` (index.js lines 281-311): reject an empty name, mint a code,
create the Room (`description || ""`, `maxMembers || 50`, `owner = req.user.id`),
then create the owner Membership.  The generated code and the request time are
parameters here. -/
def createRoom (db : DB) (userId : Nat) (name description : String)
    (maxMembers : Option Int) (code : String) (t : Nat) : CreateRes × DB :=
  if name = "" then (.invalidName, db)
  else
    let mm : Int := match maxMembers with
      | none => 50
      | some v => if v = 0 then 50 else v
    let room : Room := ⟨db.nextId, name, description, code, userId, mm⟩
    let mem : RoomMember := ⟨db.nextId + 1, room.rid, userId, "owner", "online", t⟩
    (.ok room,
     { db with rooms := db.rooms ++ [room],
               members := db.members ++ [mem],
               nextId := db.nextId + 2 })

/-- Result of the two join endpoints. -/
inductive JoinRes where
  | invalidCode
  | notFound
  | full
  | ok (room : Room) (mem : RoomMember)
deriving DecidableEq, Repr

/-- `POST /rooms/:roomId/join` (index.js lines 355-387): look the room up by
id, reject when `memberCount >= room.maxMembers`, then either reuse the
existing membership (marking it online) or create a fresh `member` one. -/
def joinRoomById (db : DB) (roomId userId t : Nat) : JoinRes × DB :=
  match findRoomById db roomId with
  | none => (.notFound, db)
  | some room =>
    if room.maxMembers ≤ (memberCount db roomId : Int) then (.full, db)
    else
      match findMembership db roomId userId with
      | none =>
        let mem : RoomMember := ⟨db.nextId, roomId, userId, "member", "online", t⟩
        (.ok room mem,
         { db with members := db.members ++ [mem], nextId := db.nextId + 1 })
      | some m0 =>
        let m1 := { m0 with status := "online" }
        (.ok room m1,
         { db with members := db.members.map (fun x => if x.mid == m0.mid then m1 else x) })

/-- The code-normalising lookup of `POST /rooms/join-by-code` (index.js lines
319-326): reject a blank code, then `Room.findOne({ roomCode:
roomCode.trim().toUpperCase() })`. -/
def resolveRoomCode (db : DB) (rawCode : String) : Option Room :=
  if jsTrim rawCode = "" then none
  else findRoomByCode db (jsToUpper (jsTrim rawCode))

/-- `POST /rooms/join-by-code` (index.js lines 315-351): same as
`joinRoomById` after resolving the room through the trimmed, upper-cased
code. -/
def joinRoomByCode (db : DB) (rawCode : String) (userId t : Nat) : JoinRes × DB :=
  if jsTrim rawCode = "" then (.invalidCode, db)
  else
    match findRoomByCode db (jsToUpper (jsTrim rawCode)) with
    | none => (.notFound, db)
    | some room =>
      if room.maxMembers ≤ (memberCount db room.rid : Int) then (.full, db)
      else
        match findMembership db room.rid userId with
        | none =>
          let mem : RoomMember := ⟨db.nextId, room.rid, userId, "member", "online", t⟩
          (.ok room mem,
           { db with members := db.members ++ [mem], nextId := db.nextId + 1 })
        | some m0 =>
          let m1 := { m0 with status := "online" }
          (.ok room m1,
           { db with members := db.members.map (fun x => if x.mid == m0.mid then m1 else x) })

/-- Result of `POST /rooms/:roomId/leave`.  `left` carries the response's
`roomId` and `newOwnerId` fields (the room's owner after any transfer). -/
inductive LeaveRes where
  | notFound
  | notMember
  | deleted
  | left (roomId : Nat) (newOwnerId : Nat)
deriving DecidableEq, Repr

/-- `POST /rooms/:roomId/leave` (index.js lines 575-630): if the leaver is the
last member, delete the room's messages, memberships and the room itself;
otherwise, if the leaver owns the room, promote the first member (in
`joinedAt`-ascending order) whose user differs from the leaver, then delete
the leaver's membership. -/
def leaveRoom (db : DB) (roomId userId : Nat) : LeaveRes × DB :=
  match findRoomById db roomId with
  | none => (.notFound, db)
  | some room =>
    match findMembership db roomId userId with
    | none => (.notMember, db)
    | some m0 =>
      let membersInRoom := sortByJoined (db.members.filter (fun m => m.room == roomId))
      if membersInRoom.length = 1 then
        (.deleted,
         { db with
             messages := db.messages.filter (fun ms => !(ms.room == roomId)),
             members := db.members.filter (fun m => !(m.room == roomId)),
             rooms := db.rooms.filter (fun r => !(r.rid == roomId)) })
      else
        if room.owner == userId then
          match membersInRoom.find? (fun m => !(m.user == userId)) with
          | some succMem =>
            let room1 := { room with owner := succMem.user }
            (.left room1.rid room1.owner,
             { db with
                 rooms := db.rooms.map (fun r => if r.rid == roomId then room1 else r),
                 members :=
                   (db.members.map
                     (fun m => if m.mid == succMem.mid then { m with role := "owner" } else m)).filter
                     (fun m => !(m.mid == m0.mid)) })
          | none =>
            (.left room.rid room.owner,
             { db with members := db.members.filter (fun m => !(m.mid == m0.mid)) })
        else
          (.left room.rid room.owner,
           { db with members := db.members.filter (fun m => !(m.mid == m0.mid)) })

/-- Result of `PATCH /rooms/:roomId`. -/
inductive RenameRes where
  | invalidName
  | notFound
  | forbidden
  | ok (room : Room)
deriving DecidableEq, Repr

/-- `PATCH /rooms/:roomId` (index.js lines 462-495): zod rejects an empty
name; only the user equal to `room.owner` may rename. -/
def renameRoom (db : DB) (roomId userId : Nat) (newName : String) : RenameRes × DB :=
  if newName = "" then (.invalidName, db)
  else
    match findRoomById db roomId with
    | none => (.notFound, db)
    | some room =>
      if room.owner == userId then
        let room1 := { room with name := newName }
        (.ok room1,
         { db with rooms := db.rooms.map (fun r => if r.rid == roomId then room1 else r) })
      else (.forbidden, db)

/-- Result of `POST /rooms/:roomId/messages`. -/
inductive MsgRes where
  | invalidContent
  | notFound
  | notMember
  | ok (msg : Message)
deriving DecidableEq, Repr

/-- `POST /rooms/:roomId/messages` (index.js lines 391-429): reject content
that trims to empty, then check the room exists, then check the author's
membership, then persist the trimmed content and return the message. -/
def sendMessage (db : DB) (roomId userId : Nat) (content : String) : MsgRes × DB :=
  if jsTrim content = "" then (.invalidContent, db)
  else
    match findRoomById db roomId with
    | none => (.notFound, db)
    | some _ =>
      match findMembership db roomId userId with
      | none => (.notMember, db)
      | some _ =>
        let msg : Message := ⟨db.nextId, roomId, userId, jsTrim content⟩
        (.ok msg,
         { db with messages := db.messages ++ [msg], nextId := db.nextId + 1 })

/-- Result of `GET /rooms/:roomId/details`. -/
inductive DetailsRes where
  | notFound
  | forbidden
  | ok (room : Room) (members : List RoomMember) (mem : RoomMember)
deriving DecidableEq, Repr

/-- `GET /rooms/:roomId/details` (index.js lines 433-458): the requester must
be a member; returns the room, the member list sorted by `joinedAt`
ascending, and the requester's own membership. -/
def roomDetails (db : DB) (roomId userId : Nat) : DetailsRes :=
  match findRoomById db roomId with
  | none => .notFound
  | some room =>
    match findMembership db roomId userId with
    | none => .forbidden
    | some m0 =>
      .ok room (sortByJoined (db.members.filter (fun m => m.room == roomId))) m0

/-! ### Operation sequences and reachable states -/

/-- One client-visible mutating operation, with its request data (and, for
operations that create documents, the request time and the generated code). -/
inductive Op where
  | create (userId : Nat) (name description : String) (maxMembers : Option Int)
      (code : String) (t : Nat)
  | joinByCode (userId : Nat) (code : String) (t : Nat)
  | joinById (userId roomId t : Nat)
  | leave (userId roomId : Nat)
  | rename (userId roomId : Nat) (name : String)
  | send (userId roomId : Nat) (content : String)
deriving DecidableEq, Repr

/-- Apply one operation to the store, keeping only the updated store. -/
def applyOp (db : DB) : Op → DB
  | .create u n d mm c t => (createRoom db u n d mm c t).2
  | .joinByCode u c t => (joinRoomByCode db c u t).2
  | .joinById u r t => (joinRoomById db r u t).2
  | .leave u r => (leaveRoom db r u).2
  | .rename u r n => (renameRoom db r u n).2
  | .send u r c => (sendMessage db r u c).2

/-- The store after running a sequence of operations from the empty store. -/
def runOps (ops : List Op) : DB := ops.foldl applyOp initDB

/-! ### Generic list helpers -/

theorem find?_eq_of_unique {α : Type} {p : α → Bool} {l : List α} {a : α}
    (ha : a ∈ l) (hpa : p a = true) (huniq : ∀ x ∈ l, p x = true → x = a) :
    l.find? p = some a := by
  cases h : l.find? p with
  | none => exact absurd hpa (by simpa using List.find?_eq_none.mp h a ha)
  | some x =>
    rw [huniq x (List.mem_of_find?_eq_some h) (List.find?_some h)]

theorem pairwise_key_unique {α β : Type} {key : α → β} {l : List α}
    (hp : l.Pairwise (fun a b => key a ≠ key b)) :
    ∀ a ∈ l, ∀ b ∈ l, key a = key b → a = b := by
  induction l with
  | nil => simp
  | cons x xs ih =>
    rcases List.pairwise_cons.mp hp with ⟨hx, hxs⟩
    intro a ha b hb hk
    rcases List.mem_cons.mp ha with rfl | ha' <;> rcases List.mem_cons.mp hb with rfl | hb'
    · rfl
    · exact absurd hk (hx b hb')
    · exact absurd hk.symm (hx a ha')
    · exact ih hxs a ha' b hb' hk

theorem countP_eq_one_unique {α : Type} {p : α → Bool} {l : List α}
    (h : l.countP p = 1) :
    ∀ a ∈ l, p a = true → ∀ b ∈ l, p b = true → a = b := by
  intro a ha hpa b hb hpb
  rw [List.countP_eq_length_filter] at h
  obtain ⟨x, hx⟩ := List.length_eq_one.mp h
  have hax : a ∈ l.filter p := List.mem_filter.mpr ⟨ha, hpa⟩
  have hbx : b ∈ l.filter p := List.mem_filter.mpr ⟨hb, hpb⟩
  rw [hx] at hax hbx
  simp only [List.mem_singleton] at hax hbx
  rw [hax, hbx]

/-! ### Facts about the query helpers -/

theorem findRoomById_spec {db : DB} {roomId : Nat} {r : Room}
    (h : findRoomById db roomId = some r) : r ∈ db.rooms ∧ r.rid = roomId := by
  refine ⟨List.mem_of_find?_eq_some h, ?_⟩
  have := List.find?_some h
  simpa using this

theorem findMembership_spec {db : DB} {roomId userId : Nat} {m : RoomMember}
    (h : findMembership db roomId userId = some m) :
    m ∈ db.members ∧ m.room = roomId ∧ m.user = userId := by
  refine ⟨List.mem_of_find?_eq_some h, ?_⟩
  have := List.find?_some h
  simp only [Bool.and_eq_true, beq_iff_eq] at this
  exact this

/-! ### The `joinedAt` sort is a stable permutation -/

theorem insertByJoined_perm (a : RoomMember) (l : List RoomMember) :
    (insertByJoined a l).Perm (a :: l) := by
  induction l with
  | nil => exact List.Perm.refl _
  | cons x xs ih =>
    simp only [insertByJoined]
    by_cases h : x.joinedAt < a.joinedAt
    · rw [if_pos h]
      exact (ih.cons x).trans (List.Perm.swap a x xs)
    · rw [if_neg h]

theorem sortByJoined_perm (l : List RoomMember) : (sortByJoined l).Perm l := by
  induction l with
  | nil => exact List.Perm.refl _
  | cons x xs ih => exact (insertByJoined_perm x (sortByJoined xs)).trans (ih.cons x)

theorem insertByJoined_sorted (a : RoomMember) (l : List RoomMember)
    (hl : l.Pairwise (fun u v => u.joinedAt ≤ v.joinedAt)) :
    (insertByJoined a l).Pairwise (fun u v => u.joinedAt ≤ v.joinedAt) := by
  induction l with
  | nil => simp [insertByJoined]
  | cons x xs ih =>
    rcases List.pairwise_cons.mp hl with ⟨hx, hxs⟩
    simp only [insertByJoined]
    by_cases h : x.joinedAt < a.joinedAt
    · rw [if_pos h]
      refine List.pairwise_cons.mpr ⟨?_, ih hxs⟩
      intro y hy
      rcases List.mem_cons.mp ((insertByJoined_perm a xs).subset hy) with rfl | hy'
      · exact Nat.le_of_lt h
      · exact hx y hy'
    · rw [if_neg h]
      refine List.pairwise_cons.mpr ⟨?_, hl⟩
      intro y hy
      rcases List.mem_cons.mp hy with rfl | hy'
      · exact Nat.le_of_not_lt h
      · exact le_trans (Nat.le_of_not_lt h) (hx y hy')

theorem sortByJoined_sorted (l : List RoomMember) :
    (sortByJoined l).Pairwise (fun u v => u.joinedAt ≤ v.joinedAt) := by
  induction l with
  | nil => simp [sortByJoined]
  | cons x xs ih => exact insertByJoined_sorted x (sortByJoined xs) ih

/-! ### C2 — last leave deletes everything -/

/-- C2 — Last-leave deletes everything: when a room's only membership belongs
to the caller of Leave, the result is `deleted`, no room, membership or
message for that room id survives, and a subsequent Details call on that room
id fails with `notFound` for every requester. -/
theorem C2_last_leave (db : DB) (roomId userId : Nat) (r : Room) (m : RoomMember)
    (hr : findRoomById db roomId = some r)
    (hf : db.members.filter (fun x => x.room == roomId) = [m])
    (hu : m.user = userId) :
    (leaveRoom db roomId userId).1 = .deleted ∧
    (∀ r' ∈ (leaveRoom db roomId userId).2.rooms, r'.rid ≠ roomId) ∧
    (∀ m' ∈ (leaveRoom db roomId userId).2.members, m'.room ≠ roomId) ∧
    (∀ ms ∈ (leaveRoom db roomId userId).2.messages, ms.room ≠ roomId) ∧
    (∀ u, roomDetails (leaveRoom db roomId userId).2 roomId u = .notFound) := by
  have hmailf : m ∈ db.members.filter (fun x => x.room == roomId) := by
    rw [hf]; exact List.mem_singleton_self m
  have hmem : m ∈ db.members := List.mem_of_mem_filter hmailf
  have hroom : m.room = roomId := by simpa using List.of_mem_filter hmailf
  have hfind : findMembership db roomId userId = some m := by
    apply find?_eq_of_unique hmem
    · simp [hroom, hu]
    · intro x hx hpx
      simp only [Bool.and_eq_true, beq_iff_eq] at hpx
      have : x ∈ db.members.filter (fun y => y.room == roomId) :=
        List.mem_filter.mpr ⟨hx, by simp [hpx.1]⟩
      rw [hf] at this
      simpa using this
  have hsort : sortByJoined (db.members.filter (fun x => x.room == roomId)) = [m] := by
    rw [hf]; rfl
  simp only [leaveRoom, hr, hfind, hsort, List.length_singleton, reduceIte]
  refine ⟨trivial, ?_, ?_, ?_, ?_⟩
  · intro r' hr'
    have := List.of_mem_filter hr'
    simpa using this
  · intro m' hm'
    have := List.of_mem_filter hm'
    simpa using this
  · intro ms hms
    have := List.of_mem_filter hms
    simpa using this
  · intro u
    have hnone : findRoomById
        { db with
            messages := db.messages.filter (fun ms => !(ms.room == roomId)),
            members := db.members.filter (fun x => !(x.room == roomId)),
            rooms := db.rooms.filter (fun r' => !(r'.rid == roomId)) } roomId = none := by
      apply List.find?_eq_none.mpr
      intro r' hr'
      have := List.of_mem_filter hr'
      simpa using this
    simp only [roomDetails, hnone]

/-- Concrete single-member room used by several witnesses. -/
def dbOne : DB := runOps [.create 1 "general" "" none "ABCDEF" 0]

/-- The room document of `dbOne`. -/
def roomOne : Room := ⟨0, "general", "", "ABCDEF", 1, 50⟩

/-- The owner membership document of `dbOne`. -/
def memOne : RoomMember := ⟨1, 0, 1, "owner", "online", 0⟩

theorem C2_last_leave_witness :
    (leaveRoom dbOne 0 1).1 = .deleted ∧
    (∀ r' ∈ (leaveRoom dbOne 0 1).2.rooms, r'.rid ≠ 0) ∧
    (∀ m' ∈ (leaveRoom dbOne 0 1).2.members, m'.room ≠ 0) ∧
    (∀ ms ∈ (leaveRoom dbOne 0 1).2.messages, ms.room ≠ 0) ∧
    (∀ u, roomDetails (leaveRoom dbOne 0 1).2 0 u = .notFound) :=
  C2_last_leave dbOne 0 1 roomOne memOne (by decide) (by decide) rfl

/-! ### C9 — details contract -/

/-- C9 — Details contract: for an existing room, Details fails with
`forbidden` exactly when the requester has no membership in the room; on
success it returns the room, the member list sorted by `joinedAt` ascending
(a permutation of all the room's memberships), and the requester's own
membership. -/
theorem C9_details (db : DB) (roomId userId : Nat) (r : Room)
    (hr : findRoomById db roomId = some r) :
    (roomDetails db roomId userId = .forbidden ↔
      findMembership db roomId userId = none) ∧
    (∀ m0, findMembership db roomId userId = some m0 →
      m0.room = roomId ∧ m0.user = userId ∧
      roomDetails db roomId userId =
        .ok r (sortByJoined (db.members.filter (fun m => m.room == roomId))) m0 ∧
      (sortByJoined (db.members.filter (fun m => m.room == roomId))).Perm
        (db.members.filter (fun m => m.room == roomId)) ∧
      (sortByJoined (db.members.filter (fun m => m.room == roomId))).Pairwise
        (fun u v => u.joinedAt ≤ v.joinedAt)) := by
  constructor
  · cases hm : findMembership db roomId userId with
    | none => simp [roomDetails, hr, hm]
    | some m0 => simp [roomDetails, hr, hm]
  · intro m0 hm
    obtain ⟨-, hroom, huser⟩ := findMembership_spec hm
    exact ⟨hroom, huser, by simp [roomDetails, hr, hm], sortByJoined_perm _,
      sortByJoined_sorted _⟩

theorem C9_details_witness :
    (roomDetails dbOne 0 1 = .forbidden ↔ findMembership dbOne 0 1 = none) ∧
    (∀ m0, findMembership dbOne 0 1 = some m0 →
      m0.room = 0 ∧ m0.user = 1 ∧
      roomDetails dbOne 0 1 =
        .ok roomOne (sortByJoined (dbOne.members.filter (fun m => m.room == 0))) m0 ∧
      (sortByJoined (dbOne.members.filter (fun m => m.room == 0))).Perm
        (dbOne.members.filter (fun m => m.room == 0)) ∧
      (sortByJoined (dbOne.members.filter (fun m => m.room == 0))).Pairwise
        (fun u v => u.joinedAt ≤ v.joinedAt)) :=
  C9_details dbOne 0 1 roomOne (by decide)

/-! ### C10 — join-code normalization -/

/-- C10 — Join-code normalization: JoinByCode trims and upper-cases the
supplied code before lookup, so (with room codes unique and the stored code
non-empty, as generated codes are) an input resolves to a given existing room
exactly when its trimmed upper-cased form equals that room's stored code. -/
theorem C10_code_normalization (db : DB) (r : Room) (raw : String)
    (hmem : r ∈ db.rooms)
    (huniq : db.rooms.Pairwise (fun a b => a.roomCode ≠ b.roomCode))
    (hne : r.roomCode ≠ "") :
    resolveRoomCode db raw = some r ↔ jsToUpper (jsTrim raw) = r.roomCode := by
  constructor
  · intro h
    unfold resolveRoomCode at h
    by_cases ht : jsTrim raw = ""
    · rw [if_pos ht] at h; exact absurd h (by simp)
    · rw [if_neg ht] at h
      have := List.find?_some h
      simp only [beq_iff_eq] at this
      exact this.symm
  · intro h
    have ht : jsTrim raw ≠ "" := by
      intro h0
      rw [h0] at h
      exact hne (h ▸ rfl)
    unfold resolveRoomCode
    rw [if_neg ht]
    apply find?_eq_of_unique hmem
    · simp [h]
    · intro x hx hpx
      simp only [beq_iff_eq] at hpx
      exact pairwise_key_unique huniq x hx r hmem (by rw [hpx, h])

theorem C10_code_normalization_witness :
    (resolveRoomCode dbOne "  abcDef " = some roomOne ↔
      jsToUpper (jsTrim "  abcDef ") = roomOne.roomCode) ∧
    resolveRoomCode dbOne "  abcDef " = some roomOne :=
  ⟨C10_code_normalization dbOne roomOne "  abcDef " (by decide) (by decide) (by decide),
   by decide⟩

/-! ### Counting helpers for the join endpoints -/

theorem countP_map_save (l : List RoomMember) (m0 m1 : RoomMember) (p : RoomMember → Bool)
    (hmid : l.Pairwise (fun a b => a.mid ≠ b.mid)) (hm0 : m0 ∈ l)
    (hp : p m1 = p m0) :
    (l.map (fun x => if x.mid == m0.mid then m1 else x)).countP p = l.countP p := by
  rw [List.countP_map]
  apply List.countP_congr
  intro x hx
  by_cases h : x.mid = m0.mid
  · have hxm : x = m0 := pairwise_key_unique hmid x hx m0 hm0 h
    subst hxm
    simp [Function.comp, hp]
  · simp [Function.comp, h]

theorem resolveRoomCode_spec {db : DB} {rawCode : String} {r : Room}
    (hc : resolveRoomCode db rawCode = some r) :
    jsTrim rawCode ≠ "" ∧ findRoomByCode db (jsToUpper (jsTrim rawCode)) = some r := by
  by_cases h0 : jsTrim rawCode = ""
  · unfold resolveRoomCode at hc
    rw [if_pos h0] at hc
    exact absurd hc (by simp)
  · unfold resolveRoomCode at hc
    rw [if_neg h0] at hc
    exact ⟨h0, hc⟩


/-! ### C4 — capacity -/

/-- Concrete store holding a room created with `maxMembers: -1` (the create
handler performs no validation of `maxMembers`, only `maxMembers || 50`). -/
def dbNeg : DB := runOps [.create 1 "tiny" "" (some (-1)) "ABCDEF" 0]

/-- The room document of `dbNeg`. -/
def roomNeg : Room := ⟨0, "tiny", "", "ABCDEF", 1, -1⟩

/-- C4 counterexample — the claim that a join fails with `Full` if and only if
the pre-call membership count *equals* `maxMembers` is false: the code
compares with `>=`, and a room created with a negative `maxMembers` (which
the create handler accepts unvalidated) rejects a join as full while its
membership count (1) differs from its `maxMembers` (-1). -/
theorem C4_counterexample :
    findRoomById dbNeg 0 = some roomNeg ∧
    (joinRoomById dbNeg 0 2 5).1 = .full ∧
    (memberCount dbNeg 0 : Int) ≠ roomNeg.maxMembers := by
  decide

/-- When the code-based lookup resolves to room `r` (and `r` is also what its
id resolves to), the join-by-code handler behaves exactly as join-by-id on
`r.rid`. -/
theorem joinByCode_eq_joinById (db : DB) (rawCode : String) (userId t : Nat) (r : Room)
    (hc : resolveRoomCode db rawCode = some r)
    (hrById : findRoomById db r.rid = some r) :
    joinRoomByCode db rawCode userId t = joinRoomById db r.rid userId t := by
  obtain ⟨hq, hfc⟩ := resolveRoomCode_spec hc
  unfold joinRoomByCode joinRoomById
  rw [if_neg hq, hfc, hrById]

theorem joinById_capacity (db : DB) (roomId userId t : Nat) (r : Room)
    (hr : findRoomById db roomId = some r)
    (hmid : db.members.Pairwise (fun a b => a.mid ≠ b.mid)) :
    ((joinRoomById db roomId userId t).1 = .full ↔
      r.maxMembers ≤ (memberCount db roomId : Int)) ∧
    ((memberCount db roomId : Int) ≤ r.maxMembers →
      (memberCount (joinRoomById db roomId userId t).2 roomId : Int) ≤ r.maxMembers) ∧
    ((memberCount db roomId : Int) ≤ r.maxMembers →
      ((joinRoomById db roomId userId t).1 = .full ↔
        (memberCount db roomId : Int) = r.maxMembers)) := by
  by_cases hfull : r.maxMembers ≤ (memberCount db roomId : Int)
  · simp only [joinRoomById, hr, if_pos hfull]
    refine ⟨by simp [hfull], fun hle => hle, fun hle => ?_⟩
    constructor
    · intro _; exact le_antisymm hle hfull
    · intro _; trivial
  · simp only [joinRoomById, hr, if_neg hfull]
    cases hm : findMembership db roomId userId with
    | none =>
      have hcnt : memberCount
          { db with
              members :=
                db.members ++ [⟨db.nextId, roomId, userId, "member", "online", t⟩],
              nextId := db.nextId + 1 }
          roomId = memberCount db roomId + 1 := by
        simp [memberCount, List.countP_append]
      refine ⟨by simp [hfull], fun hle => ?_, fun hle => ?_⟩
      · rw [hcnt]
        push_cast
        omega
      · constructor
        · intro h; simp at h
        · intro h; rw [h] at hfull; exact absurd le_rfl hfull
    | some m0 =>
      have hcnt : memberCount
          { db with
              members :=
                db.members.map
                  (fun x => if x.mid == m0.mid then { m0 with status := "online" } else x) }
          roomId = memberCount db roomId := by
        exact countP_map_save db.members m0 _ _ hmid (findMembership_spec hm).1 rfl
      refine ⟨by simp [hfull], fun hle => ?_, fun hle => ?_⟩
      · rw [hcnt]; exact hle
      · constructor
        · intro h; simp at h
        · intro h; rw [h] at hfull; exact absurd le_rfl hfull

/-- C4 amended — capacity: for an existing room, JoinById and JoinByCode fail
with `Full` iff the pre-call membership count is at least `maxMembers` (for a
room whose count has not already exceeded its capacity — in particular any
room created with a positive `maxMembers` — this is the same as the count
being equal to `maxMembers`), and a join never raises the membership count
above `maxMembers` when it was not already above it.  Member ids are assumed
distinct, as MongoDB guarantees for `_id`. -/
theorem C4_capacity (db : DB) (roomId userId t : Nat) (rawCode : String) (r : Room)
    (hr : findRoomById db roomId = some r)
    (hc : resolveRoomCode db rawCode = some r)
    (hmid : db.members.Pairwise (fun a b => a.mid ≠ b.mid)) :
    (((joinRoomById db roomId userId t).1 = .full ↔
        r.maxMembers ≤ (memberCount db roomId : Int)) ∧
     ((memberCount db roomId : Int) ≤ r.maxMembers →
        (memberCount (joinRoomById db roomId userId t).2 roomId : Int) ≤ r.maxMembers) ∧
     ((memberCount db roomId : Int) ≤ r.maxMembers →
        ((joinRoomById db roomId userId t).1 = .full ↔
          (memberCount db roomId : Int) = r.maxMembers))) ∧
    (((joinRoomByCode db rawCode userId t).1 = .full ↔
        r.maxMembers ≤ (memberCount db r.rid : Int)) ∧
     ((memberCount db r.rid : Int) ≤ r.maxMembers →
        (memberCount (joinRoomByCode db rawCode userId t).2 r.rid : Int) ≤ r.maxMembers) ∧
     ((memberCount db r.rid : Int) ≤ r.maxMembers →
        ((joinRoomByCode db rawCode userId t).1 = .full ↔
          (memberCount db r.rid : Int) = r.maxMembers))) := by
  obtain ⟨hmemr, hrid⟩ := findRoomById_spec hr
  have hrById : findRoomById db r.rid = some r := by rw [hrid]; exact hr
  have heq := joinByCode_eq_joinById db rawCode userId t r hc hrById
  exact ⟨joinById_capacity db roomId userId t r hr hmid,
         by rw [heq]; exact joinById_capacity db r.rid userId t r hrById hmid⟩

theorem C4_capacity_witness :
    ((joinRoomById dbOne 0 2 5).1 = .full ↔
      roomOne.maxMembers ≤ (memberCount dbOne 0 : Int)) ∧
    ((memberCount dbOne 0 : Int) ≤ roomOne.maxMembers →
      (memberCount (joinRoomById dbOne 0 2 5).2 0 : Int) ≤ roomOne.maxMembers) ∧
    ((memberCount dbOne 0 : Int) ≤ roomOne.maxMembers →
      ((joinRoomById dbOne 0 2 5).1 = .full ↔
        (memberCount dbOne 0 : Int) = roomOne.maxMembers)) :=
  (C4_capacity dbOne 0 2 5 " abcdef " roomOne (by decide) (by decide) (by decide)).1

/-! ### C5 — idempotent join -/

/-- Concrete store: a room of capacity 2 created by user 1, which user 2 has
joined, so the room is at capacity and user 2 holds a membership. -/
def dbCap : DB := runOps [.create 1 "duo" "" (some 2) "ABCDEF" 0, .joinById 2 0 1]

/-- C5 counterexample — the claim that a user who already holds a membership
can always re-join without error is false: the handlers check capacity
*before* looking the existing membership up, so an existing member re-joining
a room whose count has reached `maxMembers` gets `Full`. -/
theorem C5_counterexample :
    (findMembership dbCap 0 2).isSome = true ∧
    (joinRoomById dbCap 0 2 9).1 = .full := by
  decide

theorem joinById_idempotent (db : DB) (roomId userId t : Nat) (r : Room) (m0 : RoomMember)
    (hr : findRoomById db roomId = some r)
    (hm : findMembership db roomId userId = some m0)
    (hmid : db.members.Pairwise (fun a b => a.mid ≠ b.mid)) :
    ((joinRoomById db roomId userId t).2.members.countP
        (fun m => m.room == roomId && m.user == userId) =
      db.members.countP (fun m => m.room == roomId && m.user == userId)) ∧
    (memberCount (joinRoomById db roomId userId t).2 roomId = memberCount db roomId) ∧
    ((memberCount db roomId : Int) < r.maxMembers →
      (joinRoomById db roomId userId t).1 = .ok r { m0 with status := "online" }) := by
  by_cases hfull : r.maxMembers ≤ (memberCount db roomId : Int)
  · simp only [joinRoomById, hr, if_pos hfull]
    exact ⟨trivial, trivial, fun hlt => absurd hfull (not_le.mpr hlt)⟩
  · simp only [joinRoomById, hr, if_neg hfull, hm]
    refine ⟨?_, ?_, fun _ => trivial⟩
    · exact countP_map_save db.members m0 _ _ hmid (findMembership_spec hm).1 rfl
    · simp only [memberCount]
      exact countP_map_save db.members m0 _ _ hmid (findMembership_spec hm).1 rfl

/-- C5 amended — idempotent join below capacity: when a user already holds a
membership in an existing room, a repeated JoinById/JoinByCode never creates
a second membership (the count of memberships for the (room,user) pair and
the room member count are unchanged), and, *provided the room is below
capacity*, the call succeeds, returning the existing membership marked
online; at capacity the repeated join instead fails with `Full` (see the
counterexample), because the capacity check precedes the membership lookup.
Member ids are assumed distinct, as MongoDB guarantees for `_id`. -/
theorem C5_idempotent_join (db : DB) (roomId userId t : Nat) (rawCode : String)
    (r : Room) (m0 : RoomMember)
    (hr : findRoomById db roomId = some r)
    (hc : resolveRoomCode db rawCode = some r)
    (hm : findMembership db roomId userId = some m0)
    (hmid : db.members.Pairwise (fun a b => a.mid ≠ b.mid)) :
    (((joinRoomById db roomId userId t).2.members.countP
        (fun m => m.room == roomId && m.user == userId) =
      db.members.countP (fun m => m.room == roomId && m.user == userId)) ∧
    (memberCount (joinRoomById db roomId userId t).2 roomId = memberCount db roomId) ∧
    ((memberCount db roomId : Int) < r.maxMembers →
      (joinRoomById db roomId userId t).1 = .ok r { m0 with status := "online" })) ∧
    (((joinRoomByCode db rawCode userId t).2.members.countP
        (fun m => m.room == roomId && m.user == userId) =
      db.members.countP (fun m => m.room == roomId && m.user == userId)) ∧
    (memberCount (joinRoomByCode db rawCode userId t).2 roomId = memberCount db roomId) ∧
    ((memberCount db roomId : Int) < r.maxMembers →
      (joinRoomByCode db rawCode userId t).1 = .ok r { m0 with status := "online" })) := by
  obtain ⟨hmemr, hrid⟩ := findRoomById_spec hr
  have hrById : findRoomById db r.rid = some r := by rw [hrid]; exact hr
  have heq := joinByCode_eq_joinById db rawCode userId t r hc hrById
  rw [hrid] at heq
  exact ⟨joinById_idempotent db roomId userId t r m0 hr hm hmid,
         by rw [heq]; exact joinById_idempotent db roomId userId t r m0 hr hm hmid⟩

theorem C5_idempotent_join_witness :
    ((joinRoomById dbOne 0 1 9).2.members.countP
        (fun m => m.room == 0 && m.user == 1) =
      dbOne.members.countP (fun m => m.room == 0 && m.user == 1)) ∧
    (memberCount (joinRoomById dbOne 0 1 9).2 0 = memberCount dbOne 0) ∧
    ((memberCount dbOne 0 : Int) < roomOne.maxMembers →
      (joinRoomById dbOne 0 1 9).1 = .ok roomOne { memOne with status := "online" }) :=
  (C5_idempotent_join dbOne 0 1 9 " abcdef " roomOne memOne
    (by decide) (by decide) (by decide) (by decide)).1

/-! ### C8 — send-message contract -/

/-- C8 counterexample — the claim that SendMessage *first* fails with
`NotMember` whenever the author has no membership is false: the handler
validates the content before looking anything up, so a non-member sending
whitespace-only content gets `ValidationError`, not `NotMember`. -/
theorem C8_counterexample :
    findMembership dbOne 0 2 = none ∧
    (sendMessage dbOne 0 2 "   ").1 = .invalidContent ∧
    (sendMessage dbOne 0 2 "   ").1 ≠ .notMember := by
  decide

/-- C8 amended — SendMessage failure and result contract with the actual
check order: it first fails with `ValidationError` whenever the content trims
to empty; otherwise (for an existing room) it fails with `NotMember` whenever
the author has no membership in the room; otherwise it persists the trimmed
message and returns it to the caller. -/
theorem C8_send (db : DB) (roomId userId : Nat) (content : String) (r : Room)
    (hr : findRoomById db roomId = some r) :
    (jsTrim content = "" → (sendMessage db roomId userId content).1 = .invalidContent) ∧
    (jsTrim content ≠ "" → findMembership db roomId userId = none →
      (sendMessage db roomId userId content).1 = .notMember) ∧
    (∀ m0, jsTrim content ≠ "" → findMembership db roomId userId = some m0 →
      (sendMessage db roomId userId content).1 =
        .ok ⟨db.nextId, roomId, userId, jsTrim content⟩ ∧
      (⟨db.nextId, roomId, userId, jsTrim content⟩ : Message) ∈
        (sendMessage db roomId userId content).2.messages) := by
  refine ⟨fun h0 => ?_, fun h0 hm => ?_, fun m0 h0 hm => ?_⟩
  · simp only [sendMessage, if_pos h0]
  · simp only [sendMessage, if_neg h0, hr, hm]
  · simp only [sendMessage, if_neg h0, hr, hm]
    refine ⟨trivial, ?_⟩
    exact List.mem_append_right _ (List.mem_singleton_self _)

theorem C8_send_witness :
    (jsTrim "  hi  " = "" → (sendMessage dbOne 0 1 "  hi  ").1 = .invalidContent) ∧
    (jsTrim "  hi  " ≠ "" → findMembership dbOne 0 1 = none →
      (sendMessage dbOne 0 1 "  hi  ").1 = .notMember) ∧
    (∀ m0, jsTrim "  hi  " ≠ "" → findMembership dbOne 0 1 = some m0 →
      (sendMessage dbOne 0 1 "  hi  ").1 =
        .ok ⟨dbOne.nextId, 0, 1, jsTrim "  hi  "⟩ ∧
      (⟨dbOne.nextId, 0, 1, jsTrim "  hi  "⟩ : Message) ∈
        (sendMessage dbOne 0 1 "  hi  ").2.messages) :=
  C8_send dbOne 0 1 "  hi  " roomOne (by decide)

/-! ### The cross-entity invariant of reachable stores -/

/-- Number of owner-role memberships a room id has. -/
def ownerCount (members : List RoomMember) (rid : Nat) : Nat :=
  members.countP (fun m => m.room == rid && m.role == "owner")

/-- The single-owner property: every existing room has exactly one owner-role
membership, and that membership's user is the room's `owner` field. -/
def SingleOwner (db : DB) : Prop :=
  ∀ r ∈ db.rooms, ownerCount db.members r.rid = 1 ∧
    ∀ m ∈ db.members, m.room = r.rid → m.role = "owner" → m.user = r.owner

/-- Structural invariant of every reachable store: ids are below the
allocation counter, document ids are strictly increasing in insertion order
(hence unique, as MongoDB object ids are), room ids are unique, at most one
membership exists per (room, user) pair, and the single-owner property
holds. -/
structure Inv (db : DB) : Prop where
  midLt : ∀ m ∈ db.members, m.mid < db.nextId
  roomLt : ∀ m ∈ db.members, m.room < db.nextId
  ridLt : ∀ r ∈ db.rooms, r.rid < db.nextId
  ridUniq : db.rooms.Pairwise (fun a b => a.rid ≠ b.rid)
  midSorted : db.members.Pairwise (fun a b => a.mid < b.mid)
  pairUniq : db.members.Pairwise (fun a b => (a.room, a.user) ≠ (b.room, b.user))
  single : SingleOwner db

theorem Inv.midNe {db : DB} (h : Inv db) :
    db.members.Pairwise (fun a b => a.mid ≠ b.mid) :=
  h.midSorted.imp (fun hlt => Nat.ne_of_lt hlt)

theorem inv_initDB : Inv initDB := by
  constructor <;> simp [initDB, SingleOwner]

theorem inv_createRoom (db : DB) (u : Nat) (name description : String)
    (mm : Option Int) (code : String) (t : Nat) (h : Inv db) :
    Inv (createRoom db u name description mm code t).2 := by
  unfold createRoom
  by_cases hn : name = ""
  · rw [if_pos hn]; exact h
  · rw [if_neg hn]
    dsimp only
    refine ⟨?_, ?_, ?_, ?_, ?_, ?_, ?_⟩
    · intro m hm
      rcases List.mem_append.mp hm with h' | h'
      · exact lt_trans (h.midLt m h') (show db.nextId < db.nextId + 2 by omega)
      · rw [List.mem_singleton.mp h']
        exact show db.nextId + 1 < db.nextId + 2 by omega
    · intro m hm
      rcases List.mem_append.mp hm with h' | h'
      · exact lt_trans (h.roomLt m h') (show db.nextId < db.nextId + 2 by omega)
      · rw [List.mem_singleton.mp h']
        exact show db.nextId < db.nextId + 2 by omega
    · intro r hr
      rcases List.mem_append.mp hr with h' | h'
      · exact lt_trans (h.ridLt r h') (show db.nextId < db.nextId + 2 by omega)
      · rw [List.mem_singleton.mp h']
        exact show db.nextId < db.nextId + 2 by omega
    · refine List.pairwise_append.mpr ⟨h.ridUniq, List.pairwise_singleton _ _, ?_⟩
      intro a ha b hb
      rw [List.mem_singleton.mp hb]
      exact Nat.ne_of_lt (h.ridLt a ha)
    · refine List.pairwise_append.mpr ⟨h.midSorted, List.pairwise_singleton _ _, ?_⟩
      intro a ha b hb
      rw [List.mem_singleton.mp hb]
      exact lt_trans (h.midLt a ha) (show db.nextId < db.nextId + 1 by omega)
    · refine List.pairwise_append.mpr ⟨h.pairUniq, List.pairwise_singleton _ _, ?_⟩
      intro a ha b hb
      rw [List.mem_singleton.mp hb]
      intro hpair
      have : a.room = db.nextId := by
        have := congrArg Prod.fst hpair
        simpa using this
      exact absurd this (Nat.ne_of_lt (h.roomLt a ha))
    · intro r' hr'
      rcases List.mem_append.mp hr' with h' | h'
      · obtain ⟨hcnt, hown⟩ := h.single r' h'
        have hne : ¬ (db.nextId = r'.rid) := Nat.ne_of_gt (h.ridLt r' h')
        constructor
        · simp only [ownerCount, List.countP_append]
          have h0 : List.countP (fun m => m.room == r'.rid && m.role == "owner")
              [(⟨db.nextId + 1, db.nextId, u, "owner", "online", t⟩ : RoomMember)] = 0 := by
            simp [hne]
          simp only [ownerCount] at hcnt
          omega
        · intro m hm hroom hrole
          rcases List.mem_append.mp hm with h'' | h''
          · exact hown m h'' hroom hrole
          · rw [List.mem_singleton.mp h''] at hroom
            exact absurd hroom hne
      · rw [List.mem_singleton.mp h']
        constructor
        · simp only [ownerCount, List.countP_append]
          have h0 : List.countP (fun m => m.room == db.nextId && m.role == "owner")
              db.members = 0 := by
            rw [List.countP_eq_zero]
            intro m hm
            simp only [Bool.and_eq_true, beq_iff_eq, not_and]
            intro hroom
            exact absurd hroom (Nat.ne_of_lt (h.roomLt m hm))
          rw [h0]
          simp
        · intro m hm hroom hrole
          rcases List.mem_append.mp hm with h'' | h''
          · exact absurd hroom (Nat.ne_of_lt (h.roomLt m h''))
          · rw [List.mem_singleton.mp h'']

theorem inv_renameRoom (db : DB) (roomId userId : Nat) (newName : String) (h : Inv db) :
    Inv (renameRoom db roomId userId newName).2 := by
  unfold renameRoom
  by_cases hn : newName = ""
  · rw [if_pos hn]; exact h
  · rw [if_neg hn]
    cases hfind : findRoomById db roomId with
    | none => exact h
    | some room =>
      dsimp only
      by_cases hown : room.owner == userId
      · rw [if_pos hown]
        obtain ⟨hroommem, hroomrid⟩ := findRoomById_spec hfind
        have hg : ∀ r : Room,
            (if r.rid == roomId then { room with name := newName } else r).rid = r.rid ∧
            (if r.rid == roomId then { room with name := newName } else r).owner = r.owner ∨
            (r.rid = roomId ∧
              (if r.rid == roomId then { room with name := newName } else r) =
                { room with name := newName }) := by
          intro r
          by_cases hrid : r.rid = roomId
          · exact Or.inr ⟨hrid, by simp [hrid]⟩
          · exact Or.inl (by simp [hrid])
        refine ⟨h.midLt, h.roomLt, ?_, ?_, h.midSorted, h.pairUniq, ?_⟩
        · intro r hr
          rcases List.mem_map.mp hr with ⟨r0, hr0, hmap⟩
          have : r.rid = r0.rid := by
            rw [← hmap]
            by_cases hrid : r0.rid = roomId <;> simp [hrid, hroomrid]
          rw [this]
          exact h.ridLt r0 hr0
        · rw [List.pairwise_map]
          refine h.ridUniq.imp_of_mem ?_
          intro a b ha hb hne
          have hga : (if a.rid == roomId then { room with name := newName } else a).rid = a.rid := by
            by_cases hrid : a.rid = roomId <;> simp [hrid, hroomrid]
          have hgb : (if b.rid == roomId then { room with name := newName } else b).rid = b.rid := by
            by_cases hrid : b.rid = roomId <;> simp [hrid, hroomrid]
          rw [hga, hgb]
          exact hne
        · intro r' hr'
          rcases List.mem_map.mp hr' with ⟨r0, hr0, hmap⟩
          obtain ⟨hcnt, hownr⟩ := h.single r0 hr0
          by_cases hrid : r0.rid = roomId
          · have hr'eq : r' = { room with name := newName } := by
              rw [← hmap]; simp [hrid]
            have hrrid : r'.rid = room.rid := by rw [hr'eq]
            obtain ⟨hcnt2, hown2⟩ := h.single room hroommem
            constructor
            · rw [hrrid]; exact hcnt2
            · intro m hm hroom2 hrole
              have : m.user = room.owner := hown2 m hm (by rw [hroom2, hrrid]) hrole
              rw [this, hr'eq]
          · have hr'eq : r' = r0 := by rw [← hmap]; simp [hrid]
            rw [hr'eq]
            exact ⟨hcnt, hownr⟩
      · rw [if_neg hown]; exact h

theorem inv_sendMessage (db : DB) (roomId userId : Nat) (content : String) (h : Inv db) :
    Inv (sendMessage db roomId userId content).2 := by
  unfold sendMessage
  by_cases h0 : jsTrim content = ""
  · rw [if_pos h0]; exact h
  · rw [if_neg h0]
    cases hfind : findRoomById db roomId with
    | none => exact h
    | some room =>
      cases hm : findMembership db roomId userId with
      | none => exact h
      | some m0 =>
        refine ⟨?_, ?_, ?_, h.ridUniq, h.midSorted, h.pairUniq, ?_⟩
        · intro m hm2
          exact lt_trans (h.midLt m hm2) (show db.nextId < db.nextId + 1 by omega)
        · intro m hm2
          exact lt_trans (h.roomLt m hm2) (show db.nextId < db.nextId + 1 by omega)
        · intro r hr2
          exact lt_trans (h.ridLt r hr2) (show db.nextId < db.nextId + 1 by omega)
        · exact h.single

/-- Field preservation of the membership save in the join handlers: updating
the status of the document with `m0`'s id leaves every document's id, room,
user and role unchanged (document ids being unique). -/
theorem save_fields {l : List RoomMember} {m0 : RoomMember}
    (hmid : l.Pairwise (fun a b => a.mid ≠ b.mid)) (hm0 : m0 ∈ l) :
    ∀ x ∈ l,
      (if x.mid == m0.mid then { m0 with status := "online" } else x).mid = x.mid ∧
      (if x.mid == m0.mid then { m0 with status := "online" } else x).room = x.room ∧
      (if x.mid == m0.mid then { m0 with status := "online" } else x).user = x.user ∧
      (if x.mid == m0.mid then { m0 with status := "online" } else x).role = x.role := by
  intro x hx
  by_cases hx0 : x.mid = m0.mid
  · have hxe : x = m0 := pairwise_key_unique hmid x hx m0 hm0 hx0
    subst hxe
    simp
  · simp [hx0]

theorem inv_joinRoomById (db : DB) (roomId userId t : Nat) (h : Inv db) :
    Inv (joinRoomById db roomId userId t).2 := by
  unfold joinRoomById
  cases hfind : findRoomById db roomId with
  | none => exact h
  | some room =>
    dsimp only
    by_cases hfull : room.maxMembers ≤ (memberCount db roomId : Int)
    · rw [if_pos hfull]; exact h
    · rw [if_neg hfull]
      obtain ⟨hroommem, hroomrid⟩ := findRoomById_spec hfind
      have hridlt : roomId < db.nextId := hroomrid ▸ h.ridLt room hroommem
      cases hm : findMembership db roomId userId with
      | none =>
        refine ⟨?_, ?_, ?_, h.ridUniq, ?_, ?_, ?_⟩
        · intro m hm'
          rcases List.mem_append.mp hm' with h' | h'
          · exact lt_trans (h.midLt m h') (show db.nextId < db.nextId + 1 by omega)
          · rw [List.mem_singleton.mp h']
            exact show db.nextId < db.nextId + 1 by omega
        · intro m hm'
          rcases List.mem_append.mp hm' with h' | h'
          · exact lt_trans (h.roomLt m h') (show db.nextId < db.nextId + 1 by omega)
          · rw [List.mem_singleton.mp h']
            exact lt_trans hridlt (show db.nextId < db.nextId + 1 by omega)
        · intro r hr
          exact lt_trans (h.ridLt r hr) (show db.nextId < db.nextId + 1 by omega)
        · refine List.pairwise_append.mpr ⟨h.midSorted, List.pairwise_singleton _ _, ?_⟩
          intro a ha b hb
          rw [List.mem_singleton.mp hb]
          exact h.midLt a ha
        · refine List.pairwise_append.mpr ⟨h.pairUniq, List.pairwise_singleton _ _, ?_⟩
          intro a ha b hb
          rw [List.mem_singleton.mp hb]
          intro hpair
          have hne := List.find?_eq_none.mp hm a ha
          simp only [Bool.and_eq_true, beq_iff_eq, not_and] at hne
          simp only [Prod.mk.injEq] at hpair
          exact hne hpair.1 hpair.2
        · intro r' hr'
          obtain ⟨hcnt, hown⟩ := h.single r' hr'
          constructor
          · simp only [ownerCount, List.countP_append]
            have h0 : List.countP (fun m => m.room == r'.rid && m.role == "owner")
                [(⟨db.nextId, roomId, userId, "member", "online", t⟩ : RoomMember)] = 0 := by
              simp
            simp only [ownerCount] at hcnt
            omega
          · intro m hm' hroom' hrole'
            rcases List.mem_append.mp hm' with h' | h'
            · exact hown m h' hroom' hrole'
            · rw [List.mem_singleton.mp h'] at hrole'
              exact absurd hrole' (by simp)
      | some m0 =>
        have hm0mem := (findMembership_spec hm).1
        have sf := save_fields h.midNe hm0mem
        refine ⟨?_, ?_, h.ridLt, h.ridUniq, ?_, ?_, ?_⟩
        · intro y hy
          rcases List.mem_map.mp hy with ⟨x, hx, rfl⟩
          rw [(sf x hx).1]
          exact h.midLt x hx
        · intro y hy
          rcases List.mem_map.mp hy with ⟨x, hx, rfl⟩
          rw [(sf x hx).2.1]
          exact h.roomLt x hx
        · rw [List.pairwise_map]
          refine h.midSorted.imp_of_mem ?_
          intro a b ha hb hab
          rw [(sf a ha).1, (sf b hb).1]
          exact hab
        · rw [List.pairwise_map]
          refine h.pairUniq.imp_of_mem ?_
          intro a b ha hb hab
          rw [(sf a ha).2.1, (sf a ha).2.2.1, (sf b hb).2.1, (sf b hb).2.2.1]
          exact hab
        · intro r' hr'
          obtain ⟨hcnt, hown⟩ := h.single r' hr'
          constructor
          · simp only [ownerCount] at hcnt ⊢
            rw [List.countP_map]
            rw [List.countP_congr ?_]
            · exact hcnt
            · intro x hx
              simp only [Function.comp]
              rw [(sf x hx).2.1, (sf x hx).2.2.2]
          · intro m hm' hroom' hrole'
            rcases List.mem_map.mp hm' with ⟨x, hx, rfl⟩
            rw [(sf x hx).2.1] at hroom'
            rw [(sf x hx).2.2.2] at hrole'
            rw [(sf x hx).2.2.1]
            exact hown x hx hroom' hrole'

theorem inv_joinRoomByCode (db : DB) (code : String) (userId t : Nat) (h : Inv db) :
    Inv (joinRoomByCode db code userId t).2 := by
  by_cases hq : jsTrim code = ""
  · have heq : joinRoomByCode db code userId t = (.invalidCode, db) := by
      unfold joinRoomByCode; rw [if_pos hq]
    rw [heq]; exact h
  · cases hfc : findRoomByCode db (jsToUpper (jsTrim code)) with
    | none =>
      have heq : joinRoomByCode db code userId t = (.notFound, db) := by
        unfold joinRoomByCode; rw [if_neg hq, hfc]
      rw [heq]; exact h
    | some room =>
      have hmem : room ∈ db.rooms := List.mem_of_find?_eq_some hfc
      have hrById : findRoomById db room.rid = some room := by
        apply find?_eq_of_unique hmem (by simp)
        intro x hx hpx
        simp only [beq_iff_eq] at hpx
        exact pairwise_key_unique h.ridUniq x hx room hmem hpx
      have hres : resolveRoomCode db code = some room := by
        unfold resolveRoomCode; rw [if_neg hq, hfc]
      rw [joinByCode_eq_joinById db code userId t room hres hrById]
      exact inv_joinRoomById db room.rid userId t h

/-! ### Helpers for the leave handler -/

theorem countP_filter_subset (p q : RoomMember → Bool) (l : List RoomMember)
    (himp : ∀ x ∈ l, p x = true → q x = true) :
    (l.filter q).countP p = l.countP p := by
  rw [List.countP_filter]
  apply List.countP_congr
  intro x hx
  constructor
  · intro hpq
    simp only [Bool.and_eq_true] at hpq
    exact hpq.1
  · intro hp
    simp only [Bool.and_eq_true]
    exact ⟨hp, himp x hx hp⟩

theorem countP_mid_self (l : List RoomMember) (s : RoomMember)
    (hmid : l.Pairwise (fun a b => a.mid ≠ b.mid)) (hs : s ∈ l) :
    l.countP (fun y => y.mid == s.mid) = 1 := by
  induction l with
  | nil => simp at hs
  | cons x xs ih =>
    rcases List.pairwise_cons.mp hmid with ⟨hx, hxs⟩
    rcases List.mem_cons.mp hs with rfl | hs'
    · have h0 : xs.countP (fun y => y.mid == s.mid) = 0 := by
        rw [List.countP_eq_zero]
        intro y hy
        simp only [beq_iff_eq]
        exact fun he => (hx y hy) he.symm
      rw [List.countP_cons, h0]
      simp
    · by_cases hxcase : x.mid = s.mid
      · exact absurd hxcase (hx s hs')
      · rw [List.countP_cons, ih hxs hs']
        simp [hxcase]

theorem exists_other (F : List RoomMember) (roomId userId : Nat)
    (hroom : ∀ x ∈ F, x.room = roomId)
    (huniq : F.Pairwise (fun a b => (a.room, a.user) ≠ (b.room, b.user)))
    (hlen : 2 ≤ F.length) :
    ∃ x ∈ F, x.user ≠ userId := by
  cases F with
  | nil => simp at hlen
  | cons a F' =>
    cases F' with
    | nil => simp at hlen
    | cons b t =>
      rcases List.pairwise_cons.mp huniq with ⟨ha, -⟩
      by_cases hau : a.user = userId
      · refine ⟨b, by simp, fun hbu => ?_⟩
        apply ha b (by simp)
        rw [hroom a (by simp), hroom b (by simp), hau, hbu]
      · exact ⟨a, by simp, hau⟩

theorem promote_fields (succ x : RoomMember) :
    (if x.mid == succ.mid then { x with role := "owner" } else x).mid = x.mid ∧
    (if x.mid == succ.mid then { x with role := "owner" } else x).room = x.room ∧
    (if x.mid == succ.mid then { x with role := "owner" } else x).user = x.user := by
  by_cases hx : x.mid = succ.mid <;> simp [hx]

theorem inv_leaveRoom (db : DB) (roomId userId : Nat) (h : Inv db) :
    Inv (leaveRoom db roomId userId).2 := by
  unfold leaveRoom
  cases hfind : findRoomById db roomId with
  | none => exact h
  | some room =>
    dsimp only
    cases hm : findMembership db roomId userId with
    | none => exact h
    | some m0 =>
      dsimp only
      obtain ⟨hroommem, hroomrid⟩ := findRoomById_spec hfind
      obtain ⟨hm0mem, hm0room, hm0user⟩ := findMembership_spec hm
      by_cases hlen :
          (sortByJoined (db.members.filter (fun m => m.room == roomId))).length = 1
      · rw [if_pos hlen]
        refine ⟨?_, ?_, ?_, ?_, ?_, ?_, ?_⟩
        · intro m hm2; exact h.midLt m (List.mem_of_mem_filter hm2)
        · intro m hm2; exact h.roomLt m (List.mem_of_mem_filter hm2)
        · intro r hr2; exact h.ridLt r (List.mem_of_mem_filter hr2)
        · exact List.Pairwise.sublist (List.filter_sublist _) h.ridUniq
        · exact List.Pairwise.sublist (List.filter_sublist _) h.midSorted
        · exact List.Pairwise.sublist (List.filter_sublist _) h.pairUniq
        · intro r' hr'
          have hr'mem := List.mem_of_mem_filter hr'
          have hr'ne : r'.rid ≠ roomId := by
            have := List.of_mem_filter hr'
            simpa using this
          obtain ⟨hcnt, hown'⟩ := h.single r' hr'mem
          constructor
          · simp only [ownerCount] at hcnt ⊢
            rw [countP_filter_subset _ _ _ ?_]
            · exact hcnt
            · intro x hx hpx
              simp only [Bool.and_eq_true, beq_iff_eq] at hpx
              simp [hpx.1, hr'ne]
          · intro m hm2 hroom2 hrole2
            exact hown' m (List.mem_of_mem_filter hm2) hroom2 hrole2
      · rw [if_neg hlen]
        by_cases hown : room.owner == userId
        · rw [if_pos hown]
          cases hsucc : (sortByJoined (db.members.filter
              (fun m => m.room == roomId))).find? (fun m => !(m.user == userId)) with
          | none =>
            exfalso
            have hall : ∀ x ∈ sortByJoined (db.members.filter (fun m => m.room == roomId)),
                x.user = userId := by
              intro x hx
              have := List.find?_eq_none.mp hsucc x hx
              simpa using this
            have hperm := sortByJoined_perm (db.members.filter (fun m => m.room == roomId))
            have hm0F : m0 ∈ db.members.filter (fun m => m.room == roomId) :=
              List.mem_filter.mpr ⟨hm0mem, by simp [hm0room]⟩
            have hlen1 : 0 < (db.members.filter (fun m => m.room == roomId)).length :=
              List.length_pos.mpr (List.ne_nil_of_mem hm0F)
            have hlen2 : 2 ≤ (sortByJoined (db.members.filter
                (fun m => m.room == roomId))).length := by
              have := hperm.length_eq
              omega
            have huniqS : (sortByJoined (db.members.filter
                (fun m => m.room == roomId))).Pairwise
                  (fun a b => (a.room, a.user) ≠ (b.room, b.user)) := by
              refine (hperm.pairwise_iff ?_).mpr
                (List.Pairwise.sublist (List.filter_sublist _) h.pairUniq)
              intro x y hxy
              exact hxy.symm
            have hroomS : ∀ x ∈ sortByJoined (db.members.filter
                (fun m => m.room == roomId)), x.room = roomId := by
              intro x hx
              have hxF := hperm.mem_iff.mp hx
              have := List.of_mem_filter hxF
              simpa using this
            obtain ⟨x, hxS, hxuser⟩ := exists_other _ roomId userId hroomS huniqS hlen2
            exact hxuser (hall x hxS)
          | some succ =>
            dsimp only
            have hsuccS := List.mem_of_find?_eq_some hsucc
            have hsuccuser : succ.user ≠ userId := by
              have := List.find?_some hsucc
              simpa using this
            have hperm := sortByJoined_perm (db.members.filter (fun m => m.room == roomId))
            have hsuccF : succ ∈ db.members.filter (fun m => m.room == roomId) :=
              hperm.mem_iff.mp hsuccS
            have hsuccmem : succ ∈ db.members := List.mem_of_mem_filter hsuccF
            have hsuccroom : succ.room = roomId := by
              have := List.of_mem_filter hsuccF
              simpa using this
            have hroomowner : room.owner = userId := by simpa using hown
            obtain ⟨hcnt1, hown1⟩ := h.single room hroommem
            rw [hroomrid] at hcnt1
            simp only [ownerCount] at hcnt1
            have hm0role : m0.role = "owner" := by
              have hpos : 0 < db.members.countP
                  (fun m => m.room == roomId && m.role == "owner") := by omega
              obtain ⟨w, hwmem, hwp⟩ := List.countP_pos_iff.mp hpos
              simp only [Bool.and_eq_true, beq_iff_eq] at hwp
              have hwuser : w.user = room.owner :=
                hown1 w hwmem (by rw [hwp.1, hroomrid]) hwp.2
              have hwm0 : w = m0 := by
                apply pairwise_key_unique h.pairUniq w hwmem m0 hm0mem
                rw [Prod.mk.injEq]
                exact ⟨by rw [hwp.1, hm0room], by rw [hwuser, hroomowner, hm0user]⟩
              rw [← hwm0]
              exact hwp.2
            have hsuccmidne : succ.mid ≠ m0.mid := by
              intro he
              have heq : succ = m0 := pairwise_key_unique h.midNe succ hsuccmem m0 hm0mem he
              exact hsuccuser (by rw [heq, hm0user])
            have howner_unique : ∀ x ∈ db.members, x.room = roomId → x.role = "owner" →
                x = m0 := by
              intro x hx hxr hxrole
              exact countP_eq_one_unique hcnt1 x hx (by simp [hxr, hxrole]) m0 hm0mem
                (by simp [hm0room, hm0role])
            refine ⟨?_, ?_, ?_, ?_, ?_, ?_, ?_⟩
            · intro y hy
              rcases List.mem_map.mp (List.mem_of_mem_filter hy) with ⟨x, hx, rfl⟩
              rw [(promote_fields succ x).1]
              exact h.midLt x hx
            · intro y hy
              rcases List.mem_map.mp (List.mem_of_mem_filter hy) with ⟨x, hx, rfl⟩
              rw [(promote_fields succ x).2.1]
              exact h.roomLt x hx
            · intro r'' hr''
              rcases List.mem_map.mp hr'' with ⟨r', hr', rfl⟩
              have hgr : (if r'.rid == roomId then { room with owner := succ.user }
                  else r').rid = r'.rid := by
                by_cases hc : r'.rid = roomId <;> simp [hc, hroomrid]
              rw [hgr]
              exact h.ridLt r' hr'
            · rw [List.pairwise_map]
              refine h.ridUniq.imp_of_mem ?_
              intro a b ha hb hab
              have hga : (if a.rid == roomId then { room with owner := succ.user }
                  else a).rid = a.rid := by
                by_cases hc : a.rid = roomId <;> simp [hc, hroomrid]
              have hgb : (if b.rid == roomId then { room with owner := succ.user }
                  else b).rid = b.rid := by
                by_cases hc : b.rid = roomId <;> simp [hc, hroomrid]
              rw [hga, hgb]
              exact hab
            · refine List.Pairwise.sublist (List.filter_sublist _) ?_
              rw [List.pairwise_map]
              refine List.Pairwise.imp ?_ h.midSorted
              intro a b hab
              rw [(promote_fields succ a).1, (promote_fields succ b).1]
              exact hab
            · refine List.Pairwise.sublist (List.filter_sublist _) ?_
              rw [List.pairwise_map]
              refine List.Pairwise.imp ?_ h.pairUniq
              intro a b hab
              rw [(promote_fields succ a).2.1, (promote_fields succ a).2.2,
                (promote_fields succ b).2.1, (promote_fields succ b).2.2]
              exact hab
            · intro r'' hr''
              rcases List.mem_map.mp hr'' with ⟨r', hr', rfl⟩
              by_cases hc : r'.rid = roomId
              · have hgr : (if r'.rid == roomId then { room with owner := succ.user }
                    else r') = { room with owner := succ.user } := by simp [hc]
                rw [hgr]
                constructor
                · show ownerCount _ ({ room with owner := succ.user } : Room).rid = 1
                  have hrid2 : ({ room with owner := succ.user } : Room).rid = roomId := by
                    simp [hroomrid]
                  rw [hrid2]
                  simp only [ownerCount]
                  rw [List.countP_filter, List.countP_map]
                  rw [List.countP_congr ?_]
                  · exact countP_mid_self db.members succ h.midNe hsuccmem
                  · intro x hx
                    by_cases hx0 : x.mid = succ.mid
                    · have hxe : x = succ := pairwise_key_unique h.midNe x hx succ hsuccmem hx0
                      subst hxe
                      simp [Function.comp, hsuccroom, hsuccmidne]
                    · have hfx : (if x.mid == succ.mid then { x with role := "owner" }
                          else x) = x := by simp [hx0]
                      simp only [Function.comp, hfx]
                      constructor
                      · intro hpq
                        simp only [Bool.and_eq_true, beq_iff_eq] at hpq
                        obtain ⟨⟨hxr, hxrole⟩, hq⟩ := hpq
                        have hxm0 := howner_unique x hx hxr hxrole
                        rw [hxm0] at hq
                        simp at hq
                      · intro hxs
                        simp only [beq_iff_eq] at hxs
                        exact absurd hxs hx0
                · intro m' hm' hroom' hrole'
                  have hq' : m'.mid ≠ m0.mid := by
                    have := List.of_mem_filter hm'
                    simpa using this
                  rcases List.mem_map.mp (List.mem_of_mem_filter hm') with ⟨x, hx, hxeq⟩
                  by_cases hx0 : x.mid = succ.mid
                  · have hxe : x = succ := pairwise_key_unique h.midNe x hx succ hsuccmem hx0
                    subst hxe
                    rw [← hxeq]
                    simp [hx0]
                  · have hfx : (if x.mid == succ.mid then { x with role := "owner" }
                        else x) = x := by simp [hx0]
                    rw [hfx] at hxeq
                    subst hxeq
                    have hxr : x.room = roomId := by
                      have hrid3 : ({ room with owner := succ.user } : Room).rid = roomId := by
                        simp [hroomrid]
                      rw [hrid3] at hroom'
                      exact hroom'
                    have hxm0 := howner_unique x hx hxr hrole'
                    rw [hxm0] at hq'
                    exact absurd rfl hq'
              · have hgr : (if r'.rid == roomId then { room with owner := succ.user }
                    else r') = r' := by simp [hc]
                rw [hgr]
                obtain ⟨hcnt', hown'⟩ := h.single r' hr'
                constructor
                · simp only [ownerCount] at hcnt' ⊢
                  rw [List.countP_filter, List.countP_map]
                  rw [List.countP_congr ?_]
                  · exact hcnt'
                  · intro x hx
                    by_cases hx0 : x.mid = succ.mid
                    · have hxe : x = succ := pairwise_key_unique h.midNe x hx succ hsuccmem hx0
                      subst hxe
                      have hner : x.room ≠ r'.rid := by
                        rw [hsuccroom]
                        exact fun he => hc he.symm
                      simp [Function.comp, hner, hx0]
                    · have hfx : (if x.mid == succ.mid then { x with role := "owner" }
                          else x) = x := by simp [hx0]
                      simp only [Function.comp, hfx]
                      constructor
                      · intro hpq
                        simp only [Bool.and_eq_true] at hpq ⊢
                        exact hpq.1
                      · intro hpx
                        have hpx2 := hpx
                        simp only [Bool.and_eq_true, beq_iff_eq] at hpx2
                        simp only [Bool.and_eq_true]
                        refine ⟨by simpa using hpx, ?_⟩
                        by_cases hxm : x.mid = m0.mid
                        · have hxe2 : x = m0 := pairwise_key_unique h.midNe x hx m0 hm0mem hxm
                          rw [hxe2] at hpx2
                          exact absurd hpx2.1 (by rw [hm0room]; exact fun he => hc he.symm)
                        · simp [hxm]
                · intro m' hm' hroom' hrole'
                  have hq' : m'.mid ≠ m0.mid := by
                    have := List.of_mem_filter hm'
                    simpa using this
                  rcases List.mem_map.mp (List.mem_of_mem_filter hm') with ⟨x, hx, hxeq⟩
                  by_cases hx0 : x.mid = succ.mid
                  · exfalso
                    have hxe : x = succ := pairwise_key_unique h.midNe x hx succ hsuccmem hx0
                    subst hxe
                    rw [← hxeq] at hroom'
                    have : x.room = r'.rid := by simpa [hx0] using hroom'
                    rw [hsuccroom] at this
                    exact hc this.symm
                  · have hfx : (if x.mid == succ.mid then { x with role := "owner" }
                        else x) = x := by simp [hx0]
                    rw [hfx] at hxeq
                    subst hxeq
                    exact hown' x hx hroom' hrole'
        · rw [if_neg hown]
          have hownne : room.owner ≠ userId := by simpa using hown
          have hm0role : m0.role ≠ "owner" := by
            intro hrole
            obtain ⟨-, hown1⟩ := h.single room hroommem
            have huser := hown1 m0 hm0mem (by rw [hm0room, hroomrid]) hrole
            exact hownne (huser.symm.trans hm0user)
          refine ⟨?_, ?_, h.ridLt, h.ridUniq, ?_, ?_, ?_⟩
          · intro m hm2; exact h.midLt m (List.mem_of_mem_filter hm2)
          · intro m hm2; exact h.roomLt m (List.mem_of_mem_filter hm2)
          · exact List.Pairwise.sublist (List.filter_sublist _) h.midSorted
          · exact List.Pairwise.sublist (List.filter_sublist _) h.pairUniq
          · intro r' hr'
            obtain ⟨hcnt', hown'⟩ := h.single r' hr'
            constructor
            · simp only [ownerCount] at hcnt' ⊢
              rw [countP_filter_subset _ _ _ ?_]
              · exact hcnt'
              · intro x hx hpx
                simp only [Bool.and_eq_true, beq_iff_eq] at hpx
                by_cases hxm : x.mid = m0.mid
                · have hxe : x = m0 := pairwise_key_unique h.midNe x hx m0 hm0mem hxm
                  exact absurd (hxe ▸ hpx.2) hm0role
                · simp [hxm]
            · intro m hm2 hroom2 hrole2
              exact hown' m (List.mem_of_mem_filter hm2) hroom2 hrole2

/-! ### C1 — the single-owner invariant holds in every reachable state -/

theorem inv_applyOp (db : DB) (op : Op) (h : Inv db) : Inv (applyOp db op) := by
  cases op with
  | create u n d mm c t => exact inv_createRoom db u n d mm c t h
  | joinByCode u c t => exact inv_joinRoomByCode db c u t h
  | joinById u r t => exact inv_joinRoomById db r u t h
  | leave u r => exact inv_leaveRoom db r u h
  | rename u r n => exact inv_renameRoom db r u n h
  | send u r c => exact inv_sendMessage db r u c h

theorem inv_foldl (ops : List Op) : ∀ db, Inv db → Inv (ops.foldl applyOp db) := by
  induction ops with
  | nil => intro db h; exact h
  | cons op ops ih => intro db h; exact ih _ (inv_applyOp db op h)

theorem inv_runOps (ops : List Op) : Inv (runOps ops) :=
  inv_foldl ops initDB inv_initDB

/-- C1 — Single-owner invariant: in every store reachable by any sequence of
operations (Create, JoinByCode, JoinById, Leave, Rename, and also
SendMessage), every existing room has exactly one membership with role
`owner`, and that membership's user id equals the room's `owner` field. -/
theorem C1_single_owner (ops : List Op) :
    ∀ r ∈ (runOps ops).rooms,
      ownerCount (runOps ops).members r.rid = 1 ∧
      ∀ m ∈ (runOps ops).members, m.room = r.rid → m.role = "owner" → m.user = r.owner :=
  (inv_runOps ops).single

theorem C1_single_owner_witness :
    ownerCount (runOps [.create 1 "general" "" none "ABCDEF" 0]).members roomOne.rid = 1 ∧
    ∀ m ∈ (runOps [.create 1 "general" "" none "ABCDEF" 0]).members,
      m.room = roomOne.rid → m.role = "owner" → m.user = roomOne.owner :=
  C1_single_owner [.create 1 "general" "" none "ABCDEF" 0] roomOne (by decide)

/-! ### C3 — deterministic ownership transfer -/

theorem insertByJoined_pairwise_lex (a : RoomMember) (l : List RoomMember)
    (hl : l.Pairwise (fun u v => u.joinedAt < v.joinedAt ∨
      (u.joinedAt = v.joinedAt ∧ u.mid < v.mid)))
    (hmid : ∀ x ∈ l, a.mid < x.mid) :
    (insertByJoined a l).Pairwise (fun u v => u.joinedAt < v.joinedAt ∨
      (u.joinedAt = v.joinedAt ∧ u.mid < v.mid)) := by
  induction l with
  | nil => simp [insertByJoined]
  | cons x xs ih =>
    rcases List.pairwise_cons.mp hl with ⟨hx, hxs⟩
    simp only [insertByJoined]
    by_cases hj : x.joinedAt < a.joinedAt
    · rw [if_pos hj]
      refine List.pairwise_cons.mpr
        ⟨?_, ih hxs (fun y hy => hmid y (List.mem_cons_of_mem x hy))⟩
      intro y hy
      rcases List.mem_cons.mp ((insertByJoined_perm a xs).subset hy) with rfl | hy'
      · exact Or.inl hj
      · exact hx y hy'
    · rw [if_neg hj]
      refine List.pairwise_cons.mpr ⟨?_, hl⟩
      intro y hy
      rcases List.mem_cons.mp hy with rfl | hy'
      · rcases Nat.lt_or_ge a.joinedAt y.joinedAt with h1 | h1
        · exact Or.inl h1
        · have heq : a.joinedAt = y.joinedAt := Nat.le_antisymm (Nat.le_of_not_lt hj) h1
          exact Or.inr ⟨heq, hmid y (List.mem_cons_self y xs)⟩
      · have hxy := hx y hy'
        have hax : a.joinedAt ≤ x.joinedAt := Nat.le_of_not_lt hj
        have hxyle : x.joinedAt ≤ y.joinedAt := by
          rcases hxy with h1 | ⟨h1, -⟩
          · exact Nat.le_of_lt h1
          · exact Nat.le_of_eq h1
        rcases Nat.lt_or_ge a.joinedAt y.joinedAt with h1 | h1
        · exact Or.inl h1
        · have heq : a.joinedAt = y.joinedAt := Nat.le_antisymm (le_trans hax hxyle) h1
          exact Or.inr ⟨heq, hmid y (List.mem_cons_of_mem x hy')⟩

/-- With document ids strictly increasing in insertion order, the stable
`joinedAt` sort yields a list sorted lexicographically by (joinedAt, id):
ties in `joinedAt` end up ordered by id. -/
theorem sortByJoined_pairwise_lex (l : List RoomMember)
    (hmid : l.Pairwise (fun a b => a.mid < b.mid)) :
    (sortByJoined l).Pairwise (fun u v => u.joinedAt < v.joinedAt ∨
      (u.joinedAt = v.joinedAt ∧ u.mid < v.mid)) := by
  induction l with
  | nil => simp [sortByJoined]
  | cons x xs ih =>
    rcases List.pairwise_cons.mp hmid with ⟨hx, hxs⟩
    exact insertByJoined_pairwise_lex x (sortByJoined xs) (ih hxs)
      (fun y hy => hx y ((sortByJoined_perm xs).subset hy))

theorem find?_rid_map (l : List Room) (roomId : Nat) (g : Room → Room)
    (hg : ∀ r, (g r).rid = r.rid) :
    (l.map g).find? (fun r => r.rid == roomId) =
      (l.find? (fun r => r.rid == roomId)).map g := by
  induction l with
  | nil => rfl
  | cons x xs ih =>
    by_cases hx : x.rid = roomId
    · rw [List.map_cons, List.find?_cons_of_pos _ (by simp [hg, hx]),
        List.find?_cons_of_pos _ (by simp [hx])]
      rfl
    · rw [List.map_cons, List.find?_cons_of_neg _ (by simp [hg, hx]),
        List.find?_cons_of_neg _ (by simp [hx]), ih]

theorem leave_transfer_spec (db : DB) (roomId userId : Nat) (r : Room) (h : Inv db)
    (hr : findRoomById db roomId = some r)
    (howner : r.owner = userId)
    (hcount : 2 ≤ memberCount db roomId) :
    ∃ s ∈ db.members,
      s.room = roomId ∧ s.user ≠ userId ∧
      (∀ o ∈ db.members, o.room = roomId → o.user ≠ userId →
        s.joinedAt < o.joinedAt ∨ (s.joinedAt = o.joinedAt ∧ s.mid ≤ o.mid)) ∧
      (leaveRoom db roomId userId).1 = .left roomId s.user ∧
      findRoomById (leaveRoom db roomId userId).2 roomId =
        some { r with owner := s.user } ∧
      (∃ m' ∈ (leaveRoom db roomId userId).2.members,
        m'.mid = s.mid ∧ m'.user = s.user ∧ m'.room = roomId ∧ m'.role = "owner") ∧
      (∀ m' ∈ (leaveRoom db roomId userId).2.members,
        ¬(m'.room = roomId ∧ m'.user = userId)) := by
  obtain ⟨hroommem, hroomrid⟩ := findRoomById_spec hr
  obtain ⟨hcnt1, hown1⟩ := h.single r hroommem
  rw [hroomrid] at hcnt1
  simp only [ownerCount] at hcnt1
  have hpos : 0 < db.members.countP (fun m => m.room == roomId && m.role == "owner") := by
    omega
  obtain ⟨w, hwmem, hwp⟩ := List.countP_pos_iff.mp hpos
  simp only [Bool.and_eq_true, beq_iff_eq] at hwp
  have hwuser : w.user = userId := by
    have := hown1 w hwmem (by rw [hwp.1, hroomrid]) hwp.2
    rw [this, howner]
  have hfm : findMembership db roomId userId = some w := by
    apply find?_eq_of_unique hwmem (by simp [hwp.1, hwuser])
    intro x hx hpx
    simp only [Bool.and_eq_true, beq_iff_eq] at hpx
    apply pairwise_key_unique h.pairUniq x hx w hwmem
    rw [Prod.mk.injEq]
    exact ⟨by rw [hpx.1, hwp.1], by rw [hpx.2, hwuser]⟩
  have hperm := sortByJoined_perm (db.members.filter (fun m => m.room == roomId))
  have hlenF : (db.members.filter (fun m => m.room == roomId)).length =
      memberCount db roomId := by
    simp only [memberCount]
    exact (List.countP_eq_length_filter _ _).symm
  have hlenS : ¬ (sortByJoined (db.members.filter
      (fun m => m.room == roomId))).length = 1 := by
    rw [hperm.length_eq, hlenF]
    omega
  have hSlex := sortByJoined_pairwise_lex (db.members.filter (fun m => m.room == roomId))
    (List.Pairwise.sublist (List.filter_sublist _) h.midSorted)
  have hroomS : ∀ x ∈ sortByJoined (db.members.filter (fun m => m.room == roomId)),
      x.room = roomId := by
    intro x hx
    have := List.of_mem_filter (hperm.mem_iff.mp hx)
    simpa using this
  have huniqS : (sortByJoined (db.members.filter (fun m => m.room == roomId))).Pairwise
      (fun a b => (a.room, a.user) ≠ (b.room, b.user)) := by
    refine (hperm.pairwise_iff ?_).mpr
      (List.Pairwise.sublist (List.filter_sublist _) h.pairUniq)
    intro x y hxy
    exact hxy.symm
  have hlen2 : 2 ≤ (sortByJoined (db.members.filter
      (fun m => m.room == roomId))).length := by
    rw [hperm.length_eq, hlenF]
    omega
  obtain ⟨x0, hx0S, hx0u⟩ := exists_other _ roomId userId hroomS huniqS hlen2
  cases hsucc : (sortByJoined (db.members.filter
      (fun m => m.room == roomId))).find? (fun m => !(m.user == userId)) with
  | none =>
    have := List.find?_eq_none.mp hsucc x0 hx0S
    exact absurd (by simpa using this) hx0u
  | some succ =>
    have hsuccS := List.mem_of_find?_eq_some hsucc
    have hsuccuser : succ.user ≠ userId := by
      have := List.find?_some hsucc
      simpa using this
    have hsuccF := hperm.mem_iff.mp hsuccS
    have hsuccmem : succ ∈ db.members := List.mem_of_mem_filter hsuccF
    have hsuccroom : succ.room = roomId := by
      have := List.of_mem_filter hsuccF
      simpa using this
    have hsuccmidne : succ.mid ≠ w.mid := by
      intro he
      have heqv : succ = w := pairwise_key_unique h.midNe succ hsuccmem w hwmem he
      exact hsuccuser (by rw [heqv, hwuser])
    obtain ⟨hps, l1, l2, hsplit, hl1⟩ := List.find?_eq_some.mp hsucc
    have hmin : ∀ o ∈ db.members, o.room = roomId → o.user ≠ userId →
        succ.joinedAt < o.joinedAt ∨ (succ.joinedAt = o.joinedAt ∧ succ.mid ≤ o.mid) := by
      intro o ho hor hou
      have hoF : o ∈ db.members.filter (fun m => m.room == roomId) :=
        List.mem_filter.mpr ⟨ho, by simp [hor]⟩
      have hoS := hperm.mem_iff.mpr hoF
      rw [hsplit] at hoS hSlex
      rcases List.mem_append.mp hoS with h1 | h1
      · have := hl1 o h1
        exact absurd (by simpa using this) hou
      · rcases List.mem_cons.mp h1 with rfl | h2
        · exact Or.inr ⟨rfl, le_refl _⟩
        · have hpair := (List.pairwise_append.mp hSlex).2.1
          have := (List.pairwise_cons.mp hpair).1 o h2
          rcases this with h3 | ⟨h3, h4⟩
          · exact Or.inl h3
          · exact Or.inr ⟨h3, Nat.le_of_lt h4⟩
    have hg : ∀ r2 : Room,
        ((fun r3 => if r3.rid == roomId then { r with owner := succ.user } else r3) r2).rid =
          r2.rid := by
      intro r2
      by_cases hc : r2.rid = roomId <;> simp [hc, hroomrid]
    have hle : leaveRoom db roomId userId =
        (.left r.rid succ.user,
         { db with
             rooms := db.rooms.map
               (fun r3 => if r3.rid == roomId then { r with owner := succ.user } else r3),
             members := (db.members.map
               (fun m => if m.mid == succ.mid then { m with role := "owner" } else m)).filter
                 (fun m => !(m.mid == w.mid)) }) := by
      unfold leaveRoom
      rw [hr]
      dsimp only
      rw [hfm]
      dsimp only
      rw [if_neg hlenS, if_pos (show (r.owner == userId) = true by simp [howner]), hsucc]
    refine ⟨succ, hsuccmem, hsuccroom, hsuccuser, hmin, ?_, ?_, ?_, ?_⟩
    · rw [hle, hroomrid]
    · rw [hle]
      show (db.rooms.map _).find? _ = _
      rw [find?_rid_map db.rooms roomId _ hg]
      have hrfind : db.rooms.find? (fun r3 => r3.rid == roomId) = some r := hr
      rw [hrfind]
      simp [hroomrid]
    · refine ⟨{ succ with role := "owner" }, ?_, rfl, rfl, hsuccroom, rfl⟩
      rw [hle]
      refine List.mem_filter.mpr ⟨?_, by simp [hsuccmidne]⟩
      exact List.mem_map.mpr ⟨succ, hsuccmem, by simp⟩
    · rw [hle]
      rintro m' hm' ⟨hmr, hmu⟩
      have hq' : m'.mid ≠ w.mid := by
        have := List.of_mem_filter hm'
        simpa using this
      rcases List.mem_map.mp (List.mem_of_mem_filter hm') with ⟨x, hx, hxeq⟩
      have hfields := promote_fields succ x
      have hxr : x.room = roomId := by rw [← hfields.2.1, hxeq]; exact hmr
      have hxu : x.user = userId := by rw [← hfields.2.2, hxeq]; exact hmu
      have hxw : x = w := by
        apply pairwise_key_unique h.pairUniq x hx w hwmem
        rw [Prod.mk.injEq]
        exact ⟨by rw [hxr, hwp.1], by rw [hxu, hwuser]⟩
      apply hq'
      rw [← hxeq, hfields.1, hxw]

/-- C3 — Ownership-transfer determinism: in any reachable store, when the
owner of a room with at least two memberships calls Leave, the new owner is
the remaining member with the earliest `joinedAt` (ties broken by the stable
secondary key, the membership id): the room's `owner` field is set to that
member's user, that member's membership role becomes `owner`, and the
leaver's membership is deleted. -/
theorem C3_owner_leave_transfer (ops : List Op) (roomId userId : Nat) (r : Room)
    (hr : findRoomById (runOps ops) roomId = some r)
    (howner : r.owner = userId)
    (hcount : 2 ≤ memberCount (runOps ops) roomId) :
    ∃ s ∈ (runOps ops).members,
      s.room = roomId ∧ s.user ≠ userId ∧
      (∀ o ∈ (runOps ops).members, o.room = roomId → o.user ≠ userId →
        s.joinedAt < o.joinedAt ∨ (s.joinedAt = o.joinedAt ∧ s.mid ≤ o.mid)) ∧
      (leaveRoom (runOps ops) roomId userId).1 = .left roomId s.user ∧
      findRoomById (leaveRoom (runOps ops) roomId userId).2 roomId =
        some { r with owner := s.user } ∧
      (∃ m' ∈ (leaveRoom (runOps ops) roomId userId).2.members,
        m'.mid = s.mid ∧ m'.user = s.user ∧ m'.room = roomId ∧ m'.role = "owner") ∧
      (∀ m' ∈ (leaveRoom (runOps ops) roomId userId).2.members,
        ¬(m'.room = roomId ∧ m'.user = userId)) :=
  leave_transfer_spec (runOps ops) roomId userId r (inv_runOps ops) hr howner hcount

/-- A three-member room: user 1 created it, then users 2 and 3 joined. -/
def opsThree : List Op :=
  [.create 1 "trio" "" none "ABCDEF" 0, .joinById 2 0 1, .joinById 3 0 2]

/-- The room document of `runOps opsThree`. -/
def roomThree : Room := ⟨0, "trio", "", "ABCDEF", 1, 50⟩

theorem C3_owner_leave_transfer_witness :
    ∃ s ∈ (runOps opsThree).members,
      s.room = 0 ∧ s.user ≠ 1 ∧
      (∀ o ∈ (runOps opsThree).members, o.room = 0 → o.user ≠ 1 →
        s.joinedAt < o.joinedAt ∨ (s.joinedAt = o.joinedAt ∧ s.mid ≤ o.mid)) ∧
      (leaveRoom (runOps opsThree) 0 1).1 = .left 0 s.user ∧
      findRoomById (leaveRoom (runOps opsThree) 0 1).2 0 =
        some { roomThree with owner := s.user } ∧
      (∃ m' ∈ (leaveRoom (runOps opsThree) 0 1).2.members,
        m'.mid = s.mid ∧ m'.user = s.user ∧ m'.room = 0 ∧ m'.role = "owner") ∧
      (∀ m' ∈ (leaveRoom (runOps opsThree) 0 1).2.members,
        ¬(m'.room = 0 ∧ m'.user = 1)) :=
  C3_owner_leave_transfer opsThree 0 1 roomThree (by decide) rfl (by decide)

end Convo
